import Mathlib

/-!
Verification of the context-budgeting pipeline of `backend/llm.py` in the
knowledge-base-assistant repository.

The Python module manipulates article text exclusively through
`str.split()` (whitespace tokenization), `" ".join`, string formatting and
list slicing/sorting.  We embed it shallowly:

* a text is a `String`; `pyWords` embeds Python's `str.split()`
  (split on whitespace runs, no empty words) via `List.splitOnP` on the
  character list;
* `Context` is the dataclass `{title, body}`;
* the effectful OpenAI client is embedded as an oracle
  `complete : String → String → Except String String` taking the system
  message and the user prompt and returning either the completion text or
  an error; every function that can call the provider also returns the
  number of completion calls it performed, and Python exceptions are the
  `Except.error` branch;
* module constants (`WORD_BUDGET`, `CHUNK_WORDS`, `SUMMARY_TARGET`) keep
  their values from the source.
-/

namespace KBA

/-- WORD_BUDGET = 3500 from llm.py. -/
def WORD_BUDGET : Nat := 3500

/-- CHUNK_WORDS = 400 from llm.py. -/
def CHUNK_WORDS : Nat := 400

/-- SUMMARY_TARGET = 150 from llm.py. -/
def SUMMARY_TARGET : Nat := 150

/-- Embedding of Python `text.split()`: split the character list on runs of
whitespace and drop the empty pieces, so the result is the list of
whitespace-delimited words of `text`. -/
def pyWords (text : String) : List String :=
  ((text.toList.splitOnP fun c => c.isWhitespace).map fun cs => String.mk cs).filter
    fun w => w ≠ ""

/-- Embedding of `_approx_words(text) = len(text.split())`. -/
def _approx_words (text : String) : Nat :=
  (pyWords text).length

/-- The word-level content of the chunking loop of `_chunk`: the Python
comprehension `[words[i:i+max_words] for i in range(0, len(words), max_words)]`.
`range(0, L, m)` has `ceil(L/m) = (L + m - 1) / m` elements `0, m, 2m, ...`,
which `List.range' 0 _ m` produces, and the slice `words[i:i+m]` is
`(ws.drop i).take m`.  For `max_words = 0` Python's `range` would raise; here
the element count `(L + 0 - 1) / 0` is `0` so the result is `[]`, and every
statement about chunking assumes a positive chunk size. -/
def chunksOfWords (ws : List String) (maxWords : Nat) : List (List String) :=
  (List.range' 0 ((ws.length + maxWords - 1) / maxWords) maxWords).map
    fun i => (ws.drop i).take maxWords

/-- Embedding of `_chunk(text, max_words)`: split `text` into words, slice the
word list, and rejoin each slice with single spaces. -/
def _chunk (text : String) (maxWords : Nat) : List String :=
  (chunksOfWords (pyWords text) maxWords).map fun ws => String.intercalate " " ws

/-- The dataclass `Context` of llm.py. -/
structure Context where
  title : String
  body : String
deriving DecidableEq, Repr

/-- Embedding of Python `str.lower()`: lowercase the string character by
character (`String.toLower` spelled through the character list so that it
evaluates structurally). -/
def strLower (s : String) : String :=
  String.mk (s.toList.map fun c => c.toLower)

/-- The set `q_terms = {w.lower() for w in q.split() if w}` of `_rank_chunks`,
kept as a list; only membership in it is ever used. -/
def qTermsOf (q : String) : List String :=
  (pyWords q).map fun w => strLower w

/-- The inner `score` function of `_rank_chunks`:
`sum(1 for w in c.lower().split() if w in q_terms)`. -/
def scoreChunk (q : String) (c : String) : Nat :=
  ((pyWords (strLower c)).filter fun w => w ∈ qTermsOf q).length

/-- Embedding of `_rank_chunks(chunks, q) = sorted(chunks, key=score, reverse=True)`.
Python `sorted` is a stable sort; with `reverse=True` it orders by
strictly greater score first and keeps the original order among equal
scores, which is exactly insertion sort with the relation
`score b ≤ score a`. -/
def _rank_chunks (chunks : List String) (q : String) : List String :=
  List.insertionSort (fun a b => scoreChunk q b ≤ scoreChunk q a) chunks

/-- The fixed system instruction inside `_build_prompt`. -/
def promptSystemText : String :=
  "You are a concise technical assistant. Use ONLY the provided context to answer. " ++
  "If the answer isn\x27t in the context, say you don\x27t have enough information. " ++
  "Keep answers under 200 words unless asked otherwise. Cite article titles inline when useful."

/-- Embedding of `_build_prompt(question, contexts)`. -/
def _build_prompt (question : String) (contexts : List Context) : String :=
  let sections := contexts.map fun c => "# " ++ c.title ++ "\n\n" ++ c.body
  let joined := String.intercalate "\n\n---\n\n" sections
  promptSystemText ++ "\n\n" ++
    "Context:\n" ++ joined ++ "\n\n" ++
    "Question: " ++ question ++ "\n" ++
    "Answer:"

/-- The ambient configuration read by llm.py: `API_KEY` from the environment
and whether the `openai` package imported (`OpenAI is None` when it did not). -/
structure Env where
  apiKey : String
  openaiInstalled : Bool
deriving DecidableEq, Repr

/-- The error message of `_ensure_client` for a missing credential. -/
def missingKeyMsg : String :=
  "OPENAI_API_KEY is not set. Put it in your .env at repo root."

/-- The error message of `_ensure_client` for a missing openai package. -/
def missingPkgMsg : String :=
  "\x27openai\x27 package not installed. Run: pip install openai"

/-- Embedding of `_ensure_client()`: raise on a falsy `API_KEY` (the empty
string), then on a missing `openai` package; otherwise hand back the client.
The client itself carries no data here because every completion call goes
through the oracle. -/
def _ensure_client (env : Env) : Except String Unit :=
  if env.apiKey = "" then .error missingKeyMsg
  else if env.openaiInstalled = false then .error missingPkgMsg
  else .ok ()

/-- A completion oracle: system message and user prompt to completion text
(already `or ""`-defaulted) or a raised error. -/
def Oracle : Type := String → String → Except String String

/-- The system message of the summarization call. -/
def summarySystemText : String := "You are a helpful technical summarizer."

/-- The system message of the final answering call. -/
def answerSystemText : String := "You answer strictly from the provided documentation."

/-- The summarization prompt built inside `summarize_long_context` for one
context `c`; `SUMMARY_TARGET` is interpolated as in the f-string. -/
def summaryPromptFor (question : String) (c : Context) : String :=
  "Summarize the following article for answering the user question. " ++
  "Write ~" ++ toString SUMMARY_TARGET ++ " words, keep key facts and technical details.\n\n" ++
  "User question: " ++ question ++ "\n\n" ++
  "Article titled: " ++ c.title ++ "\n\n" ++
  c.body

/-- The per-context loop of `summarize_long_context`, returning the rebuilt
list (or the first raised error) together with the number of completion calls
made. -/
def summarizeLoop (complete : Oracle) (question : String) :
    List Context → Except String (List Context) × Nat
  | [] => (.ok [], 0)
  | c :: cs =>
    if _approx_words c.body ≤ SUMMARY_TARGET then
      let rn := summarizeLoop complete question cs
      (rn.1.map fun out => c :: out, rn.2)
    else
      match complete summarySystemText (summaryPromptFor question c) with
      | .error e => (.error e, 1)
      | .ok content =>
        let summary := content.trim
        let rn := summarizeLoop complete question cs
        (rn.1.map fun out => Context.mk c.title summary :: out, rn.2 + 1)

/-- Embedding of `summarize_long_context(question, contexts)`: obtain the
client first (raising on configuration errors before any call), then run the
per-context loop. -/
def summarize_long_context (env : Env) (complete : Oracle) (question : String)
    (contexts : List Context) : Except String (List Context) × Nat :=
  match _ensure_client env with
  | .error e => (.error e, 0)
  | .ok _ => summarizeLoop complete question contexts

/-- An input row of `generate_answer`; `row.get("title") or ""` and
`row.get("content") or ""` are embedded as the already-defaulted strings. -/
structure Row where
  title : String
  content : String
deriving DecidableEq, Repr

/-- The context built from one well-formed row in the assembly loop of
`generate_answer`: chunk the stripped content, rank the chunks against the
question, keep the top two and join them with the visible ellipsis. -/
def contextOfRow (question : String) (row : Row) : Context :=
  let content := row.content.trim
  let chunks := _chunk content CHUNK_WORDS
  let top2 := (_rank_chunks chunks question).take 2
  Context.mk row.title.trim (String.intercalate " ... " top2)

/-- The assembly loop of `generate_answer` (`for row in raw_contexts: ...`),
mirroring the Python append-to-accumulator loop. -/
def assembleContexts (question : String) (rows : List Row) : List Context :=
  rows.foldl
    (fun acc row =>
      if row.title.trim = "" ∨ row.content.trim = "" then acc
      else acc ++ [contextOfRow question row])
    []

/-- The trimming loop of `generate_answer`, threading the `trimmed`
accumulator implicitly and the running `total_words` explicitly: it stops at
the first context whose word count would push the total over `WORD_BUDGET`
and returns the kept contexts together with the final total. -/
def trimLoop (total : Nat) : List Context → List Context × Nat
  | [] => ([], total)
  | c :: cs =>
    let w := _approx_words c.body
    if total + w > WORD_BUDGET then ([], total)
    else
      let rt := trimLoop (total + w) cs
      (c :: rt.1, rt.2)

/-- The trimmed context list of `generate_answer` (the loop started with
`total_words = 0`). -/
def trimContexts (cs : List Context) : List Context :=
  (trimLoop 0 cs).1

/-- Total word count of a context list, `sum(_approx_words(c.body) for c in cs)`. -/
def totalWords (cs : List Context) : Nat :=
  (cs.map fun c => _approx_words c.body).sum

/-- The guard `total_words > WORD_BUDGET` that decides whether
`generate_answer` calls `summarize_long_context`. -/
def summaryGuard (cs : List Context) : Prop :=
  (trimLoop 0 cs).2 > WORD_BUDGET

instance (cs : List Context) : Decidable (summaryGuard cs) := by
  unfold summaryGuard; infer_instance

/-- Embedding of `generate_answer(question, raw_contexts)`: assemble, trim,
summarize under the over-budget guard, then obtain the client, build the
prompt and make the answering call.  The returned number counts every
completion call (summarization calls included). -/
def generate_answer (env : Env) (complete : Oracle) (question : String)
    (rows : List Row) : Except String String × Nat :=
  let contexts := assembleContexts question rows
  let tt := trimLoop 0 contexts
  let s :=
    if tt.2 > WORD_BUDGET then
      summarize_long_context env complete question tt.1
    else (.ok tt.1, 0)
  match s.1 with
  | .error e => (.error e, s.2)
  | .ok trimmed2 =>
    match _ensure_client env with
    | .error e => (.error e, s.2)
    | .ok _ =>
      let prompt := _build_prompt question trimmed2
      match complete answerSystemText prompt with
      | .error e => (.error e, s.2 + 1)
      | .ok content => (.ok content.trim, s.2 + 1)

/-- The summarization-free rendering of `generate_answer`: assemble, trim,
obtain the client and answer from the trimmed contexts directly, with no
summarization step.  Comparison target for the claim that the summarizer is
unreachable. -/
def generateAnswerNoSummary (env : Env) (complete : Oracle) (question : String)
    (rows : List Row) : Except String String × Nat :=
  let trimmed := trimContexts (assembleContexts question rows)
  match _ensure_client env with
  | .error e => (.error e, 0)
  | .ok _ =>
    match complete answerSystemText (_build_prompt question trimmed) with
    | .error e => (.error e, 1)
    | .ok content => (.ok content.trim, 1)

/-- A text of `n` words: `"a a ... a "` (`n` copies of `"a "`).  Used to build
concrete over-budget bodies. -/
def mkWords : Nat → String
  | 0 => ""
  | n + 1 => "a " ++ mkWords n

end KBA

namespace KBA

@[simp]
theorem totalWords_nil : totalWords [] = 0 := rfl

@[simp]
theorem totalWords_cons (c : Context) (cs : List Context) :
    totalWords (c :: cs) = _approx_words c.body + totalWords cs := by
  simp [totalWords]

/-- The final running total of the trimming loop is the starting total plus
the word count of what it kept. -/
theorem trimLoop_snd_eq (t : Nat) (cs : List Context) :
    (trimLoop t cs).2 = t + totalWords (trimLoop t cs).1 := by
  induction cs generalizing t with
  | nil => simp [trimLoop]
  | cons c cs ih =>
    by_cases h : t + _approx_words c.body > WORD_BUDGET
    · simp [trimLoop, h]
    · simp only [trimLoop, if_neg h]
      rw [totalWords_cons, ih (t + _approx_words c.body)]
      omega

/-- The trimming loop never lets the running total pass the budget. -/
theorem trimLoop_total_le (t : Nat) (cs : List Context) (ht : t ≤ WORD_BUDGET) :
    (trimLoop t cs).2 ≤ WORD_BUDGET := by
  induction cs generalizing t with
  | nil => simpa [trimLoop] using ht
  | cons c cs ih =>
    by_cases h : t + _approx_words c.body > WORD_BUDGET
    · simpa [trimLoop, h] using ht
    · simp only [trimLoop, if_neg h]
      exact ih (t + _approx_words c.body) (by omega)

/-- What the trimming loop keeps is an initial segment of its input. -/
theorem trimLoop_fst_leading (t : Nat) (cs : List Context) :
    (trimLoop t cs).1 <+: cs := by
  induction cs generalizing t with
  | nil => simp [trimLoop]
  | cons c cs ih =>
    by_cases h : t + _approx_words c.body > WORD_BUDGET
    · simp [trimLoop, h]
    · simp only [trimLoop, if_neg h]
      obtain ⟨tail, htail⟩ := ih (t + _approx_words c.body)
      exact ⟨tail, by simp [htail]⟩

/-- The trimming loop keeps everything, or stops exactly at a context whose
word count would push the running total over the budget. -/
theorem trimLoop_stop (t : Nat) (cs : List Context) :
    (trimLoop t cs).1 = cs ∨
      ∃ c rest, cs = (trimLoop t cs).1 ++ c :: rest ∧
        WORD_BUDGET < (trimLoop t cs).2 + _approx_words c.body := by
  induction cs generalizing t with
  | nil => left; simp [trimLoop]
  | cons c cs ih =>
    by_cases h : t + _approx_words c.body > WORD_BUDGET
    · right
      exact ⟨c, cs, by simp [trimLoop, h], by simp [trimLoop, h]⟩
    · simp only [trimLoop, if_neg h]
      rcases ih (t + _approx_words c.body) with heq | ⟨d, rest, hsplit, hover⟩
      · left; rw [heq]
      · right
        exact ⟨d, rest, by rw [List.cons_append]; exact congrArg (fun l => c :: l) hsplit, hover⟩

/-- Re-running the trimming loop on its own kept list keeps it all. -/
theorem trimLoop_idem (t : Nat) (cs : List Context) :
    (trimLoop t (trimLoop t cs).1).1 = (trimLoop t cs).1 := by
  induction cs generalizing t with
  | nil => simp [trimLoop]
  | cons c cs ih =>
    by_cases h : t + _approx_words c.body > WORD_BUDGET
    · simp [trimLoop, h]
    · simp only [trimLoop, if_neg h]
      exact congrArg (fun l => c :: l) (ih (t + _approx_words c.body))

/-- C2: the Budget Trimmer returns an initial segment of its input whose
total word count is at most `WORD_BUDGET`, and it is the longest such
segment under the stop-at-first-overflow rule: either everything is kept, or
the input splits as the kept part followed by a first context whose word
count added to the kept total passes the budget (all later contexts being
dropped). -/
theorem claim_C2_trimmer_greedy (cs : List Context) :
    trimContexts cs <+: cs ∧ totalWords (trimContexts cs) ≤ WORD_BUDGET ∧
      (trimContexts cs = cs ∨
        ∃ c rest, cs = trimContexts cs ++ c :: rest ∧
          WORD_BUDGET < totalWords (trimContexts cs) + _approx_words c.body) := by
  have hsnd := trimLoop_snd_eq 0 cs
  refine ⟨trimLoop_fst_leading 0 cs, ?_, ?_⟩
  · have := trimLoop_total_le 0 cs (by simp [WORD_BUDGET])
    unfold trimContexts
    omega
  · rcases trimLoop_stop 0 cs with heq | ⟨c, rest, hsplit, hover⟩
    · left; exact heq
    · right; exact ⟨c, rest, hsplit, by unfold trimContexts at *; omega⟩

/-- C6: the Budget Trimmer is idempotent: trimming its own output returns
that output unchanged. -/
theorem claim_C6_trimmer_idempotent (cs : List Context) :
    trimContexts (trimContexts cs) = trimContexts cs :=
  trimLoop_idem 0 cs

/-- Unfolding equation of `String.intercalate` on a list of two or more
pieces. -/
theorem intercalate_cons_cons (s a b : String) (l : List String) :
    String.intercalate s (a :: b :: l) = a ++ s ++ String.intercalate s (b :: l) := by
  show String.intercalate.go a s (b :: l) = a ++ s ++ String.intercalate.go b s l
  induction l generalizing a b with
  | nil => simp [String.intercalate.go]
  | cons c l ih =>
    show String.intercalate.go (a ++ s ++ b) s (c :: l) = a ++ s ++ String.intercalate.go b s (c :: l)
    rw [ih (a ++ s ++ b) c, ih b c]
    simp [String.append_assoc]

/-- No piece produced by `splitOnP` contains a separator. -/
theorem mem_splitOnP_no_sep {α : Type} {p : α → Bool} :
    ∀ (l : List α), ∀ piece ∈ l.splitOnP p, ∀ x ∈ piece, p x = false := by
  intro l
  induction l with
  | nil =>
    intro piece hp x hx
    rw [List.splitOnP_nil] at hp
    simp only [List.mem_singleton] at hp
    subst hp
    simp at hx
  | cons a l ih =>
    intro piece hp x hx
    rw [List.splitOnP_cons] at hp
    by_cases ha : p a
    · rw [if_pos ha] at hp
      rcases List.mem_cons.mp hp with h0 | h0
      · subst h0; simp at hx
      · exact ih piece h0 x hx
    · rw [if_neg ha] at hp
      rcases hsp : l.splitOnP p with _ | ⟨h0, rest⟩
      · exact absurd hsp (List.splitOnP_ne_nil p l)
      · rw [hsp] at hp
        simp only [List.modifyHead, List.mem_cons] at hp
        rcases hp with h1 | h1
        · subst h1
          rcases List.mem_cons.mp hx with hxa | hxh
          · subst hxa; exact Bool.eq_false_iff.mpr ha
          · exact ih h0 (by rw [hsp]; exact List.mem_cons_self h0 rest) x hxh
        · exact ih piece (by rw [hsp]; exact List.mem_cons_of_mem h0 h1) x hx

/-- Every word `pyWords` returns is nonempty and contains no whitespace. -/
theorem pyWords_sound (text : String) :
    ∀ w ∈ pyWords text, w ≠ "" ∧ ∀ c ∈ w.toList, c.isWhitespace = false := by
  intro w hw
  unfold pyWords at hw
  have hmem := (List.mem_filter.mp hw).1
  have hne : w ≠ "" := by
    have := (List.mem_filter.mp hw).2
    simpa using this
  refine ⟨hne, ?_⟩
  rcases List.mem_map.mp hmem with ⟨piece, hpiece, rfl⟩
  intro c hc
  exact mem_splitOnP_no_sep _ piece hpiece c hc

/-- Splitting is a left inverse of joining with single spaces, on lists of
nonempty whitespace-free words. -/
theorem pyWords_intercalate :
    ∀ ws : List String,
      (∀ w ∈ ws, w ≠ "" ∧ ∀ c ∈ w.toList, c.isWhitespace = false) →
      pyWords (String.intercalate " " ws) = ws := by
  intro ws
  induction ws with
  | nil => intro _; decide
  | cons a ws ih =>
    intro h
    obtain ⟨hane, hafree⟩ := h a (List.mem_cons_self a ws)
    cases ws with
    | nil =>
      show pyWords a = [a]
      unfold pyWords
      rw [List.splitOnP_eq_single _ _ (by intro x hx; simpa using hafree x hx)]
      have : a ≠ "" := hane
      simp [this]
    | cons b ws' =>
      rw [intercalate_cons_cons]
      have htail := ih fun w hw => h w (List.mem_cons_of_mem a hw)
      unfold pyWords at htail ⊢
      have hsp : (" " : String).data = [' '] := by decide
      have hdata : (a ++ " " ++ String.intercalate " " (b :: ws')).toList =
          a.toList ++ ' ' :: (String.intercalate " " (b :: ws')).toList := by
        show (a ++ " " ++ String.intercalate " " (b :: ws')).data =
          a.data ++ ' ' :: (String.intercalate " " (b :: ws')).data
        rw [String.data_append, String.data_append, hsp, List.append_assoc]
        rfl
      rw [hdata, List.splitOnP_first _ _ (by intro x hx; simpa using hafree x hx) ' ' (by decide)]
      simp only [List.map_cons, List.filter_cons]
      have hmk : String.mk a.toList = a := rfl
      rw [hmk]
      have hd : (decide (a ≠ "")) = true := by simpa using hane
      simp only [hd, if_true]
      rw [htail]

/-- Flattening the word slices of the chunking comprehension gives back a
bounded initial segment of the word list. -/
theorem flatten_slices (m k : Nat) :
    ∀ (s : Nat) (ws : List String),
      ((List.range' s k m).map fun i => (ws.drop i).take m).flatten =
        (ws.drop s).take (k * m) := by
  induction k with
  | zero => intro s ws; simp
  | succ k ih =>
    intro s ws
    rw [List.range'_succ]
    simp only [List.map_cons, List.flatten_cons]
    rw [ih (s + m) ws, ← List.drop_drop, ← List.take_add]
    congr 1
    ring

/-- The chunking comprehension covers the whole word list. -/
theorem chunksOfWords_flatten (ws : List String) (m : Nat) (hm : 0 < m) :
    (chunksOfWords ws m).flatten = ws := by
  unfold chunksOfWords
  rw [flatten_slices m ((ws.length + m - 1) / m) 0 ws]
  simp only [List.drop_zero]
  apply List.take_of_length_le
  have h1 := Nat.div_add_mod (ws.length + m - 1) m
  rw [Nat.mul_comm] at h1
  have h2 := Nat.mod_lt (ws.length + m - 1) hm
  omega

/-- Every chunk of the chunking comprehension holds at most `m` words. -/
theorem chunksOfWords_le (ws : List String) (m : Nat) :
    ∀ chunk ∈ chunksOfWords ws m, chunk.length ≤ m := by
  intro chunk hchunk
  rcases List.mem_map.mp hchunk with ⟨i, _, rfl⟩
  calc ((ws.drop i).take m).length ≤ m := by
        rw [List.length_take]; exact min_le_left _ _

/-- The chunking comprehension produces `ceil(L/m)` chunks. -/
theorem chunksOfWords_length (ws : List String) (m : Nat) :
    (chunksOfWords ws m).length = (ws.length + m - 1) / m := by
  unfold chunksOfWords
  rw [List.length_map, List.length_range']

/-- Every word inside a chunk of `chunksOfWords ws m` is a word of `ws`. -/
theorem mem_chunksOfWords_mem (ws : List String) (m : Nat) :
    ∀ chunk ∈ chunksOfWords ws m, ∀ w ∈ chunk, w ∈ ws := by
  intro chunk hchunk w hw
  rcases List.mem_map.mp hchunk with ⟨i, _, rfl⟩
  exact List.mem_of_mem_drop (List.mem_of_mem_take hw)

/-- C3: for a text of `L` whitespace-delimited words and a chunk size
`C > 0`, `_chunk` produces `ceil(L/C)` chunks of at most `C` words each,
no chunk splits a word and concatenating the word sequences of the chunks in
order gives back the word sequence of the text exactly, and a text with zero
words yields no chunks. -/
theorem claim_C3_chunker (text : String) (C : Nat) (hC : 0 < C) :
    (_chunk text C).length = ((pyWords text).length + C - 1) / C ∧
      (∀ chunk ∈ _chunk text C, _approx_words chunk ≤ C) ∧
      ((_chunk text C).map pyWords).flatten = pyWords text ∧
      (pyWords text = [] → _chunk text C = []) := by
  have hcond : ∀ chunk ∈ chunksOfWords (pyWords text) C,
      ∀ w ∈ chunk, w ≠ "" ∧ ∀ c ∈ w.toList, c.isWhitespace = false := by
    intro chunk hchunk w hw
    exact pyWords_sound text w (mem_chunksOfWords_mem (pyWords text) C chunk hchunk w hw)
  have hwords : ∀ chunk ∈ chunksOfWords (pyWords text) C,
      pyWords (String.intercalate " " chunk) = chunk := by
    intro chunk hchunk
    exact pyWords_intercalate chunk (hcond chunk hchunk)
  refine ⟨?_, ?_, ?_, ?_⟩
  · unfold _chunk
    rw [List.length_map, chunksOfWords_length]
  · intro ch hch
    rcases List.mem_map.mp hch with ⟨chunk, hchunk, rfl⟩
    unfold _approx_words
    rw [hwords chunk hchunk]
    exact chunksOfWords_le (pyWords text) C chunk hchunk
  · unfold _chunk
    rw [List.map_map]
    have hm2 : List.map (pyWords ∘ fun ws => String.intercalate " " ws)
        (chunksOfWords (pyWords text) C) =
        List.map id (chunksOfWords (pyWords text) C) :=
      List.map_congr_left fun chunk hchunk => hwords chunk hchunk
    rw [hm2, List.map_id]
    exact chunksOfWords_flatten (pyWords text) C hC
  · intro h0
    unfold _chunk
    rw [h0]
    have : chunksOfWords [] C = [] := by
      unfold chunksOfWords
      have : (List.length ([] : List String) + C - 1) / C = 0 :=
        Nat.div_eq_of_lt (by simp; omega)
      rw [this, List.range'_zero, List.map_nil]
    rw [this, List.map_nil]

/-- Concrete instantiation of `claim_C3_chunker` at a three-word text and
chunk size two. -/
theorem claim_C3_chunker_witness :
    0 < 2 ∧
      ((_chunk "alpha beta gamma" 2).length =
          ((pyWords "alpha beta gamma").length + 2 - 1) / 2 ∧
        (∀ chunk ∈ _chunk "alpha beta gamma" 2, _approx_words chunk ≤ 2) ∧
        ((_chunk "alpha beta gamma" 2).map pyWords).flatten = pyWords "alpha beta gamma" ∧
        (pyWords "alpha beta gamma" = [] → _chunk "alpha beta gamma" 2 = [])) :=
  ⟨by decide, claim_C3_chunker "alpha beta gamma" 2 (by decide)⟩

/-- Inserting an element of score `s` into a list touches only the score-`s`
elements by putting the new one first: the skipped elements all have strictly
larger score. -/
theorem orderedInsert_filter_eq {α : Type} (score : α → Nat) (s : Nat) (a : α)
    (hs : score a = s) :
    ∀ l : List α,
      (List.orderedInsert (fun x y => score y ≤ score x) a l).filter
          (fun x => score x == s) =
        a :: l.filter (fun x => score x == s) := by
  intro l
  induction l with
  | nil => simp [hs]
  | cons b l ih =>
    show (if score b ≤ score a then a :: b :: l
        else b :: List.orderedInsert (fun x y => score y ≤ score x) a l).filter
          (fun x => score x == s) = _
    by_cases h : score b ≤ score a
    · rw [if_pos h, List.filter_cons, if_pos (by simp [hs])]
    · rw [if_neg h, List.filter_cons, List.filter_cons,
        if_neg (by simp; omega), if_neg (by simp; omega)]
      exact ih

/-- Inserting an element of a score other than `s` leaves the score-`s`
elements untouched. -/
theorem orderedInsert_filter_ne {α : Type} (score : α → Nat) (s : Nat) (a : α)
    (hs : score a ≠ s) :
    ∀ l : List α,
      (List.orderedInsert (fun x y => score y ≤ score x) a l).filter
          (fun x => score x == s) =
        l.filter (fun x => score x == s) := by
  intro l
  induction l with
  | nil => simp [hs]
  | cons b l ih =>
    show (if score b ≤ score a then a :: b :: l
        else b :: List.orderedInsert (fun x y => score y ≤ score x) a l).filter
          (fun x => score x == s) = _
    by_cases h : score b ≤ score a
    · rw [if_pos h, List.filter_cons, if_neg (by simp [hs])]
    · rw [if_neg h, List.filter_cons, List.filter_cons]
      by_cases hb : score b = s
      · rw [if_pos (by simp [hb]), if_pos (by simp [hb]), ih]
      · rw [if_neg (by simp [hb]), if_neg (by simp [hb]), ih]

/-- Descending insertion sort is stable: within each score class the order of
the input is preserved. -/
theorem insertionSort_filter_stable {α : Type} (score : α → Nat) (s : Nat) :
    ∀ l : List α,
      (List.insertionSort (fun x y => score y ≤ score x) l).filter
          (fun x => score x == s) =
        l.filter (fun x => score x == s) := by
  intro l
  induction l with
  | nil => rfl
  | cons a l ih =>
    show (List.orderedInsert (fun x y => score y ≤ score x) a
        (List.insertionSort (fun x y => score y ≤ score x) l)).filter
          (fun x => score x == s) = _
    by_cases ha : score a = s
    · rw [orderedInsert_filter_eq score s a ha, ih, List.filter_cons,
        if_pos (by simp [ha])]
    · rw [orderedInsert_filter_ne score s a ha, ih, List.filter_cons,
        if_neg (by simp [ha])]

/-- C4: the Ranker returns a permutation of its input, sorted by descending
score (the count of chunk words whose lowercase form lies in the set of
lowercased question words), within each score class the original relative
order is preserved, and a question that overlaps no chunk (score zero
everywhere) leaves the input order unchanged. -/
theorem claim_C4_ranker (chunks : List String) (q : String) :
    (_rank_chunks chunks q).Perm chunks ∧
      (_rank_chunks chunks q).Sorted (fun a b => scoreChunk q b ≤ scoreChunk q a) ∧
      (∀ s : Nat,
        (_rank_chunks chunks q).filter (fun c => scoreChunk q c == s) =
          chunks.filter (fun c => scoreChunk q c == s)) ∧
      ((∀ c ∈ chunks, scoreChunk q c = 0) → _rank_chunks chunks q = chunks) := by
  haveI ht : IsTotal String (fun a b => scoreChunk q b ≤ scoreChunk q a) :=
    ⟨fun a b => Nat.le_total (scoreChunk q b) (scoreChunk q a)⟩
  haveI htr : IsTrans String (fun a b => scoreChunk q b ≤ scoreChunk q a) :=
    ⟨fun _ _ _ h1 h2 => Nat.le_trans h2 h1⟩
  refine ⟨?_, ?_, ?_, ?_⟩
  · exact List.perm_insertionSort _ chunks
  · exact List.sorted_insertionSort _ chunks
  · intro s
    exact insertionSort_filter_stable (scoreChunk q) s chunks
  · intro h0
    apply List.Sorted.insertionSort_eq
    apply List.pairwise_of_forall_mem_list
    intro a ha b hb
    rw [h0 a ha, h0 b hb]

/-- Concrete instantiation of `claim_C4_ranker`: a question overlapping none
of the chunks leaves them in input order. -/
theorem claim_C4_ranker_witness :
    (∀ c ∈ ["foo bar", "baz"], scoreChunk "quux" c = 0) ∧
      _rank_chunks ["foo bar", "baz"] "quux" = ["foo bar", "baz"] :=
  ⟨by decide, (claim_C4_ranker ["foo bar", "baz"] "quux").2.2.2 (by decide)⟩

/-- The assembly loop grows its accumulator by exactly the contexts of the
well-formed rows, in order. -/
theorem assemble_foldl (q : String) :
    ∀ (rows : List Row) (acc : List Context),
      rows.foldl
          (fun acc row =>
            if row.title.trim = "" ∨ row.content.trim = "" then acc
            else acc ++ [contextOfRow q row]) acc =
        acc ++ rows.filterMap
          (fun row =>
            if row.title.trim = "" ∨ row.content.trim = "" then none
            else some (contextOfRow q row)) := by
  intro rows
  induction rows with
  | nil => intro acc; simp
  | cons r rows ih =>
    intro acc
    by_cases hr : r.title.trim = "" ∨ r.content.trim = ""
    · simp only [List.foldl_cons, List.filterMap_cons, if_pos hr]
      exact ih acc
    · simp only [List.foldl_cons, List.filterMap_cons, if_neg hr]
      rw [ih (acc ++ [contextOfRow q r])]
      simp

/-- C5: the Context Assembler turns each input row into one context by
chunking the stripped content, ranking the chunks against the question,
keeping the top two and joining them with the visible ellipsis separator,
paired with the stripped title; a row whose title or content strips to the
empty string is skipped silently, contributing no context (and no error, the
result being total). -/
theorem claim_C5_assembler (q : String) (rows : List Row) :
    assembleContexts q rows =
      rows.filterMap fun row =>
        if row.title.trim = "" ∨ row.content.trim = "" then none
        else some (Context.mk row.title.trim
          (String.intercalate " ... "
            ((_rank_chunks (_chunk row.content.trim CHUNK_WORDS) q).take 2))) := by
  unfold assembleContexts
  rw [assemble_foldl q rows []]
  simp only [List.nil_append]
  rfl

/-- C7: the Prompt Builder returns exactly the concatenation of the fixed
system instruction, the marker `"Context:\n"`, the `"\n\n---\n\n"`-joined
sections `"# title\n\nbody"` in the order of the given context list, the
marker `"Question: "` with the literal question, and the trailing
`"Answer:"`; its output ends with the question-and-answer markers, and as a
function it is deterministic in its two arguments. -/
theorem claim_C7_prompt_builder (q : String) (cs : List Context) :
    _build_prompt q cs =
      promptSystemText ++ "\n\n" ++ "Context:\n" ++
        String.intercalate "\n\n---\n\n"
          (cs.map fun c => "# " ++ c.title ++ "\n\n" ++ c.body) ++
        "\n\n" ++ "Question: " ++ q ++ "\n" ++ "Answer:" ∧
      (∃ pre, _build_prompt q cs = pre ++ "Question: " ++ q ++ "\n" ++ "Answer:") :=
  ⟨rfl, ⟨promptSystemText ++ "\n\n" ++ "Context:\n" ++
      String.intercalate "\n\n---\n\n"
        (cs.map fun c => "# " ++ c.title ++ "\n\n" ++ c.body) ++ "\n\n", rfl⟩⟩

/-- C8: with the completion-provider credential missing (`API_KEY` empty),
`generate_answer` fails with exactly the configuration error raised by
`_ensure_client`, and the completion call count is zero: no completion call
is attempted on any question or row list. -/
theorem claim_C8_missing_credential (env : Env) (hkey : env.apiKey = "")
    (complete : Oracle) (q : String) (rows : List Row) :
    generate_answer env complete q rows = (.error missingKeyMsg, 0) := by
  have hens : _ensure_client env = .error missingKeyMsg := by
    simp [_ensure_client, hkey]
  unfold generate_answer
  by_cases hg : (trimLoop 0 (assembleContexts q rows)).2 > WORD_BUDGET
  · simp [hg, summarize_long_context, hens]
  · simp [hg, hens]

/-- Concrete instantiation of `claim_C8_missing_credential` at an empty
credential, an always-succeeding oracle, and an empty row list. -/
theorem claim_C8_missing_credential_witness :
    (Env.mk "" true).apiKey = "" ∧
      generate_answer (Env.mk "" true) (fun _ _ => .ok "ans") "q" [] =
        (.error missingKeyMsg, 0) :=
  ⟨rfl, claim_C8_missing_credential (Env.mk "" true) rfl (fun _ _ => .ok "ans") "q" []⟩

/-- The pointwise relation between an input context and the corresponding
output context of the summarization loop: short bodies pass through
unchanged, long bodies are replaced by the stripped completion of the
summarization prompt. -/
def summarizedRel (complete : Oracle) (q : String) (c d : Context) : Prop :=
  (_approx_words c.body ≤ SUMMARY_TARGET ∧ d = c) ∨
    (SUMMARY_TARGET < _approx_words c.body ∧
      ∃ s, complete summarySystemText (summaryPromptFor q c) = .ok s ∧
        d = Context.mk c.title s.trim)

/-- A successful summarization loop relates input and output pointwise. -/
theorem summarizeLoop_ok (complete : Oracle) (q : String) :
    ∀ (cs : List Context) (out : List Context),
      (summarizeLoop complete q cs).1 = .ok out →
      List.Forall₂ (summarizedRel complete q) cs out := by
  intro cs
  induction cs with
  | nil =>
    intro out hout
    simp only [summarizeLoop] at hout
    cases hout
    exact List.Forall₂.nil
  | cons c cs ih =>
    intro out hout
    by_cases hshort : _approx_words c.body ≤ SUMMARY_TARGET
    · simp only [summarizeLoop, if_pos hshort] at hout
      rcases hrec : (summarizeLoop complete q cs).1 with e | o
      · rw [hrec] at hout; simp [Except.map] at hout
      · rw [hrec] at hout
        simp only [Except.map] at hout
        cases hout
        exact List.Forall₂.cons (Or.inl ⟨hshort, rfl⟩) (ih o hrec)
    · simp only [summarizeLoop, if_neg hshort] at hout
      rcases hcall : complete summarySystemText (summaryPromptFor q c) with e | content
      · rw [hcall] at hout; simp at hout
      · rw [hcall] at hout
        simp only at hout
        rcases hrec : (summarizeLoop complete q cs).1 with e | o
        · rw [hrec] at hout; simp [Except.map] at hout
        · rw [hrec] at hout
          simp only [Except.map] at hout
          cases hout
          exact List.Forall₂.cons
            (Or.inr ⟨Nat.lt_of_not_le hshort, content, hcall, rfl⟩) (ih o hrec)

/-- Any error of the summarization loop is the error of the summarization
call of some over-target context of the input. -/
theorem summarizeLoop_err (complete : Oracle) (q : String) :
    ∀ (cs : List Context) (e : String),
      (summarizeLoop complete q cs).1 = .error e →
      ∃ c ∈ cs, SUMMARY_TARGET < _approx_words c.body ∧
        complete summarySystemText (summaryPromptFor q c) = .error e := by
  intro cs
  induction cs with
  | nil => intro e he; simp [summarizeLoop] at he
  | cons c cs ih =>
    intro e he
    by_cases hshort : _approx_words c.body ≤ SUMMARY_TARGET
    · simp only [summarizeLoop, if_pos hshort] at he
      rcases hrec : (summarizeLoop complete q cs).1 with e' | o
      · rw [hrec] at he
        simp only [Except.map] at he
        cases he
        rcases ih e hrec with ⟨d, hd, hover, hcall⟩
        exact ⟨d, List.mem_cons_of_mem c hd, hover, hcall⟩
      · rw [hrec] at he; simp [Except.map] at he
    · simp only [summarizeLoop, if_neg hshort] at he
      rcases hcall : complete summarySystemText (summaryPromptFor q c) with e' | content
      · rw [hcall] at he
        simp only at he
        cases he
        exact ⟨c, List.mem_cons_self c cs, Nat.lt_of_not_le hshort, hcall⟩
      · rw [hcall] at he
        simp only at he
        rcases hrec : (summarizeLoop complete q cs).1 with e' | o
        · rw [hrec] at he
          simp only [Except.map] at he
          cases he
          rcases ih e hrec with ⟨d, hd, hover, hcall'⟩
          exact ⟨d, List.mem_cons_of_mem c hd, hover, hcall'⟩
        · rw [hrec] at he; simp [Except.map] at he

/-- If the summarization call of some over-target context of the input
fails, the whole loop returns an error (no partial result). -/
theorem summarizeLoop_fail (complete : Oracle) (q : String) :
    ∀ cs : List Context,
      (∃ c ∈ cs, SUMMARY_TARGET < _approx_words c.body ∧
        ∃ e, complete summarySystemText (summaryPromptFor q c) = .error e) →
      ∃ e, (summarizeLoop complete q cs).1 = .error e := by
  intro cs
  induction cs with
  | nil => rintro ⟨c, hc, _⟩; simp at hc
  | cons c cs ih =>
    rintro ⟨d, hd, hover, e, hcall⟩
    by_cases hshort : _approx_words c.body ≤ SUMMARY_TARGET
    · have hdcs : d ∈ cs := by
        rcases List.mem_cons.mp hd with rfl | h
        · omega
        · exact h
      rcases ih ⟨d, hdcs, hover, e, hcall⟩ with ⟨e', he'⟩
      refine ⟨e', ?_⟩
      simp only [summarizeLoop, if_pos hshort]
      rw [he']
      rfl
    · rcases hcallc : complete summarySystemText (summaryPromptFor q c) with e' | content
      · exact ⟨e', by simp only [summarizeLoop, if_neg hshort]; rw [hcallc]⟩
      · have hdcs : d ∈ cs := by
          rcases List.mem_cons.mp hd with rfl | h
          · rw [hcallc] at hcall; cases hcall
          · exact h
        rcases ih ⟨d, hdcs, hover, e, hcall⟩ with ⟨e', he'⟩
        refine ⟨e', ?_⟩
        simp only [summarizeLoop, if_neg hshort]
        rw [hcallc]
        simp only
        rw [he']
        rfl

/-- C9: with a configured client, `summarize_long_context` keeps every
context whose body is within the per-article target (`SUMMARY_TARGET`)
unchanged and in place, replaces the body of every over-target context by
the stripped completion of its summarization prompt (which carries the
question and the article title), any returned error is the error of the
summarization call of some over-target context, and if any summarization
call the loop depends on fails then the whole call errors with no partial
result. -/
theorem claim_C9_summarizer (env : Env) (complete : Oracle) (q : String)
    (cs : List Context) (hkey : env.apiKey ≠ "") (hpkg : env.openaiInstalled = true) :
    (∀ out, (summarize_long_context env complete q cs).1 = .ok out →
        List.Forall₂ (summarizedRel complete q) cs out) ∧
      (∀ e, (summarize_long_context env complete q cs).1 = .error e →
        ∃ c ∈ cs, SUMMARY_TARGET < _approx_words c.body ∧
          complete summarySystemText (summaryPromptFor q c) = .error e) ∧
      ((∃ c ∈ cs, SUMMARY_TARGET < _approx_words c.body ∧
          ∃ e, complete summarySystemText (summaryPromptFor q c) = .error e) →
        ∃ e, (summarize_long_context env complete q cs).1 = .error e) := by
  have hens : _ensure_client env = .ok () := by
    simp [_ensure_client, hkey, hpkg]
  have heq : summarize_long_context env complete q cs = summarizeLoop complete q cs := by
    unfold summarize_long_context
    rw [hens]
  rw [heq]
  exact ⟨summarizeLoop_ok complete q cs,
    fun e => summarizeLoop_err complete q cs e,
    summarizeLoop_fail complete q cs⟩

/-- Concrete instantiation of `claim_C9_summarizer` at a configured client,
an always-succeeding oracle and a one-context list. -/
theorem claim_C9_summarizer_witness :
    (Env.mk "sk" true).apiKey ≠ "" ∧ (Env.mk "sk" true).openaiInstalled = true ∧
      ((∀ out,
          (summarize_long_context (Env.mk "sk" true) (fun _ _ => .ok "sum") "q"
              [Context.mk "t" "b"]).1 = .ok out →
          List.Forall₂ (summarizedRel (fun _ _ => .ok "sum") "q")
            [Context.mk "t" "b"] out) ∧
        (∀ e,
          (summarize_long_context (Env.mk "sk" true) (fun _ _ => .ok "sum") "q"
              [Context.mk "t" "b"]).1 = .error e →
          ∃ c ∈ [Context.mk "t" "b"], SUMMARY_TARGET < _approx_words c.body ∧
            (fun _ _ => (.ok "sum" : Except String String)) summarySystemText
                (summaryPromptFor "q" c) = .error e) ∧
        ((∃ c ∈ [Context.mk "t" "b"], SUMMARY_TARGET < _approx_words c.body ∧
            ∃ e, (fun _ _ => (.ok "sum" : Except String String)) summarySystemText
                (summaryPromptFor "q" c) = .error e) →
          ∃ e, (summarize_long_context (Env.mk "sk" true) (fun _ _ => .ok "sum") "q"
              [Context.mk "t" "b"]).1 = .error e)) :=
  ⟨by decide, rfl,
    claim_C9_summarizer (Env.mk "sk" true) (fun _ _ => .ok "sum") "q"
      [Context.mk "t" "b"] (by decide) rfl⟩

/-- Splitting an `n`-fold repetition of `"a "` gives `n` copies of the word
`"a"`. -/
theorem pyWords_mkWords : ∀ n : Nat, pyWords (mkWords n) = List.replicate n "a" := by
  intro n
  induction n with
  | zero => decide
  | succ n ih =>
    show pyWords ("a " ++ mkWords n) = List.replicate (n + 1) "a"
    unfold pyWords at ih ⊢
    have hdata : ("a " ++ mkWords n).toList = 'a' :: ' ' :: (mkWords n).toList := by
      show ("a " ++ mkWords n).data = 'a' :: ' ' :: (mkWords n).data
      rw [String.data_append]
      have h0 : ("a " : String).data = ['a', ' '] := by decide
      rw [h0]
      rfl
    rw [hdata]
    have h1 : (('a' : Char).isWhitespace) = false := by decide
    have h2 : ((' ' : Char).isWhitespace) = true := by decide
    rw [List.splitOnP_cons, List.splitOnP_cons]
    simp only [h1, h2, Bool.false_eq_true, if_false, if_true, List.modifyHead_cons]
    simp only [List.map_cons, List.filter_cons]
    have h3 : (decide ((String.mk ['a']) ≠ "")) = true := by decide
    rw [h3]
    simp only [if_true]
    rw [ih]
    rfl

/-- The word count of `mkWords n` is `n`. -/
theorem _approx_words_mkWords (n : Nat) : _approx_words (mkWords n) = n := by
  unfold _approx_words
  rw [pyWords_mkWords]
  exact List.length_replicate n "a"

/-- C1 as stated is false on the code: here is a context list whose first
context alone exceeds `WORD_BUDGET`, yet the trimming loop ends with total
`0`, the guard `total_words > WORD_BUDGET` is false, and the summarizer is
not triggered. -/
theorem claim_C1_counterexample :
    WORD_BUDGET < _approx_words (Context.mk "T" (mkWords 3501)).body ∧
      ¬ summaryGuard [Context.mk "T" (mkWords 3501)] ∧
      trimContexts [Context.mk "T" (mkWords 3501)] = [] := by
  have hw : _approx_words (mkWords 3501) = 3501 := _approx_words_mkWords 3501
  have hover : WORD_BUDGET < _approx_words (Context.mk "T" (mkWords 3501)).body := by
    show WORD_BUDGET < _approx_words (mkWords 3501)
    rw [hw]
    decide
  have h0 : trimLoop 0 [Context.mk "T" (mkWords 3501)] = ([], 0) := by
    unfold trimLoop
    rw [if_pos (by omega)]
  refine ⟨hover, ?_, ?_⟩
  · unfold summaryGuard
    rw [h0]
    decide
  · unfold trimContexts
    rw [h0]

/-- C1 amended: the summarizer runs exactly under the guard
`total_words > WORD_BUDGET` after trimming; when the first context alone
exceeds the budget the trimming loop drops everything and ends with total
`0`, so the guard is false and the summarizer is not triggered. -/
theorem claim_C1_amended_no_trigger (c : Context) (cs : List Context)
    (h : WORD_BUDGET < _approx_words c.body) :
    trimContexts (c :: cs) = [] ∧ (trimLoop 0 (c :: cs)).2 = 0 ∧
      ¬ summaryGuard (c :: cs) := by
  have h0 : trimLoop 0 (c :: cs) = ([], 0) := by
    unfold trimLoop
    rw [if_pos (by omega)]
  refine ⟨?_, ?_, ?_⟩
  · unfold trimContexts
    rw [h0]
  · rw [h0]
  · unfold summaryGuard
    rw [h0]
    simp [WORD_BUDGET]

/-- Concrete instantiation of `claim_C1_amended_no_trigger` at a
`3501`-word body. -/
theorem claim_C1_amended_witness :
    WORD_BUDGET < _approx_words (Context.mk "S" (mkWords 3501)).body ∧
      (trimContexts [Context.mk "S" (mkWords 3501)] = [] ∧
        (trimLoop 0 [Context.mk "S" (mkWords 3501)]).2 = 0 ∧
        ¬ summaryGuard [Context.mk "S" (mkWords 3501)]) :=
  ⟨by show WORD_BUDGET < _approx_words (mkWords 3501)
      rw [_approx_words_mkWords]
      decide,
    claim_C1_amended_no_trigger (Context.mk "S" (mkWords 3501)) []
      (by show WORD_BUDGET < _approx_words (mkWords 3501)
          rw [_approx_words_mkWords]
          decide)⟩

/-- C10: the trimming loop always ends with a total within `WORD_BUDGET`,
so the summarization guard of `generate_answer` never fires:
`generate_answer` coincides with its summarization-free rendering on every
input, makes at most the one final completion call, and when the first
context alone exceeds the budget the trimmed list is empty (the prompt is
then built from no contexts at all and the provider is still called). -/
theorem claim_C10_summarizer_unreachable :
    (∀ cs : List Context, (trimLoop 0 cs).2 ≤ WORD_BUDGET) ∧
      (∀ (env : Env) (complete : Oracle) (q : String) (rows : List Row),
        generate_answer env complete q rows =
          generateAnswerNoSummary env complete q rows) ∧
      (∀ (env : Env) (complete : Oracle) (q : String) (rows : List Row),
        (generate_answer env complete q rows).2 ≤ 1) ∧
      (∀ (c : Context) (cs : List Context),
        WORD_BUDGET < _approx_words c.body → trimContexts (c :: cs) = []) := by
  have hle : ∀ cs : List Context, (trimLoop 0 cs).2 ≤ WORD_BUDGET :=
    fun cs => trimLoop_total_le 0 cs (Nat.zero_le WORD_BUDGET)
  have heq : ∀ (env : Env) (complete : Oracle) (q : String) (rows : List Row),
      generate_answer env complete q rows =
        generateAnswerNoSummary env complete q rows := by
    intro env complete q rows
    unfold generate_answer generateAnswerNoSummary
    have hg : ¬ ((trimLoop 0 (assembleContexts q rows)).2 > WORD_BUDGET) := by
      have := hle (assembleContexts q rows)
      omega
    simp only [if_neg hg]
    rfl
  refine ⟨hle, heq, ?_, ?_⟩
  · intro env complete q rows
    rw [heq env complete q rows]
    unfold generateAnswerNoSummary
    rcases he : _ensure_client env with e | u
    · simp [he]
    · rcases hc : complete answerSystemText
        (_build_prompt q (trimContexts (assembleContexts q rows))) with e | content
      · simp [he, hc]
      · simp [he, hc]
  · intro c cs h
    unfold trimContexts trimLoop
    rw [if_pos (by omega)]

/-- Concrete instantiation of the last part of
`claim_C10_summarizer_unreachable` at a `3501`-word body. -/
theorem claim_C10_summarizer_unreachable_witness :
    WORD_BUDGET < _approx_words (Context.mk "U" (mkWords 3501)).body ∧
      trimContexts [Context.mk "U" (mkWords 3501)] = [] :=
  ⟨by show WORD_BUDGET < _approx_words (mkWords 3501)
      rw [_approx_words_mkWords]
      decide,
    claim_C10_summarizer_unreachable.2.2.2 (Context.mk "U" (mkWords 3501)) []
      (by show WORD_BUDGET < _approx_words (mkWords 3501)
          rw [_approx_words_mkWords]
          decide)⟩

end KBA
